import Mathlib

/-!
Verification development for the crypto-excel-export core: the symbol
normalizers, the backward-paginated k-line fetcher and series assembler
of kucoin_service.py, and the retry wrapper and forward fetcher of
binance_service.py.

Modelling conventions:
* Python strings are lists of character code points (`PyStr`); `str.upper`
  and `str.strip` are modelled on ASCII, which covers every constant the
  code compares against.
* Timestamps are naturals (epoch seconds for KuCoin, milliseconds for
  Binance); the string-to-int conversions in the code are injective on the
  canonical decimal numerals the exchanges emit, so rows carry the numeric
  value directly.
* Prices, volumes, sleep durations and progress fractions are rationals.
* The exchange clients are explicit function parameters; raised exceptions
  are `Except`/sum values.
-/

/-- A Python string, as its list of character code points. -/
abbrev PyStr := List Nat

instance {ε α : Type} [DecidableEq ε] [DecidableEq α] : DecidableEq (Except ε α) :=
  fun x y =>
    match x, y with
    | .ok a, .ok b =>
        if h : a = b then .isTrue (by rw [h]) else .isFalse (by intro hc; cases hc; exact h rfl)
    | .error a, .error b =>
        if h : a = b then .isTrue (by rw [h]) else .isFalse (by intro hc; cases hc; exact h rfl)
    | .ok _, .error _ => .isFalse (by intro hc; cases hc)
    | .error _, .ok _ => .isFalse (by intro hc; cases hc)

/-- Code points of a Lean string literal. -/
def sOf (s : String) : PyStr := s.data.map Char.toNat

/-- ASCII upper-casing of one code point (models `str.upper` on the ASCII
symbols the services handle). -/
def upperChar (n : Nat) : Nat := if 97 ≤ n ∧ n ≤ 122 then n - 32 else n

/-- Models `str.upper`. -/
def upperStr (s : PyStr) : PyStr := s.map upperChar

/-- The whitespace code points removed by `str.strip`. -/
def isSpaceCode (n : Nat) : Bool :=
  decide (n = 32 ∨ n = 9 ∨ n = 10 ∨ n = 11 ∨ n = 12 ∨ n = 13)

/-- Right half of `str.strip`: remove trailing whitespace. -/
def trimR : PyStr → PyStr
  | [] => []
  | a :: t => if trimR t = [] ∧ isSpaceCode a = true then [] else a :: trimR t

/-- Models `str.strip`: remove trailing then leading whitespace. -/
def trimStr (s : PyStr) : PyStr := (trimR s).dropWhile isSpaceCode

/-- The code point of a hyphen. -/
def hyphen : Nat := 45

/-- The priority-ordered quote-asset list of `KuCoinService._format_symbol`. -/
def kucoinBases : List PyStr :=
  [sOf "USDT", sOf "USDC", sOf "TUSD", sOf "BUSD", sOf "BTC", sOf "ETH", sOf "KCS"]

/-- Models Python `p.endswith(s)`. -/
def endsWithCode (p s : PyStr) : Bool :=
  decide (s.length ≤ p.length) && decide (p.drop (p.length - s.length) = s)

/-- The for-loop of `_format_symbol`: the first base that is a suffix and
leaves a non-empty remainder produces the hyphenated split. -/
def splitAtBase (p : PyStr) : List PyStr → Option PyStr
  | [] => none
  | b :: bs =>
      if endsWithCode p b = true ∧ b.length < p.length
      then some (p.take (p.length - b.length) ++ hyphen :: b)
      else splitAtBase p bs

/-- `KuCoinService._format_symbol` (kucoin_service.py lines 28-37). -/
def format_symbol (pair : PyStr) : PyStr :=
  let p := upperStr pair
  match splitAtBase p kucoinBases with
  | some r => r
  | none =>
      if 3 < p.length
      then p.take (p.length - 3) ++ hyphen :: p.drop (p.length - 3)
      else p

/-- `BinanceReadService._validate_symbol` (binance_service.py lines 80-86):
empty input raises ValueError, otherwise upper-case and strip. -/
def validate_symbol (s : PyStr) : Except PyStr PyStr :=
  if s = [] then .error (sOf "Symbol cannot be empty")
  else .ok (trimStr (upperStr s))

/-- The Exchange-B normalizer algorithm as the specification words it: the
first suffix in the priority-ordered known-quote list that is a strict
suffix leaving a non-empty remainder wins; otherwise, for inputs longer
than 3 characters, split before the last 3 characters. -/
def format_symbol_spec (p : PyStr) : PyStr :=
  match kucoinBases.find? (fun b => endsWithCode p b && decide (b.length < p.length)) with
  | some b => p.take (p.length - b.length) ++ hyphen :: b
  | none =>
      if 3 < p.length
      then p.take (p.length - 3) ++ hyphen :: p.drop (p.length - 3)
      else p

theorem upperChar_idem (n : Nat) : upperChar (upperChar n) = upperChar n := by
  by_cases h : 97 ≤ n ∧ n ≤ 122
  · simp only [upperChar, if_pos h]
    rw [if_neg (by omega)]
  · simp only [upperChar, if_neg h]

theorem upperStr_idem (s : PyStr) : upperStr (upperStr s) = upperStr s := by
  induction s with
  | nil => rfl
  | cons a t ih =>
      simp only [upperStr, List.map_cons] at *
      exact List.cons_eq_cons.mpr ⟨upperChar_idem a, ih⟩

theorem isSpaceCode_upperChar (n : Nat) : isSpaceCode (upperChar n) = isSpaceCode n := by
  by_cases h : 97 ≤ n ∧ n ≤ 122
  · simp only [upperChar, if_pos h, isSpaceCode]
    exact decide_eq_decide.mpr (by omega)
  · simp only [upperChar, if_neg h]

theorem upperStr_eq_nil (s : PyStr) : upperStr s = [] ↔ s = [] := by
  cases s <;> simp [upperStr]

theorem dropWhile_upperStr (s : PyStr) :
    (upperStr s).dropWhile isSpaceCode = upperStr (s.dropWhile isSpaceCode) := by
  induction s with
  | nil => rfl
  | cons a t ih =>
      simp only [upperStr] at ih ⊢
      simp only [List.map_cons, List.dropWhile_cons, isSpaceCode_upperChar]
      by_cases hp : isSpaceCode a = true
      · simp [hp, ih]
      · simp [hp]

theorem trimR_upperStr (s : PyStr) : trimR (upperStr s) = upperStr (trimR s) := by
  induction s with
  | nil => rfl
  | cons a t ih =>
      simp only [upperStr] at ih ⊢
      simp only [List.map_cons, trimR]
      rw [ih]
      by_cases h1 : trimR t = []
      · by_cases h2 : isSpaceCode a = true
        · rw [h1]
          simp [isSpaceCode_upperChar, h2]
        · rw [h1]
          simp [isSpaceCode_upperChar, h2]
      · have h3 : List.map upperChar (trimR t) ≠ [] := by simp [h1]
        rw [if_neg (fun hc => h3 hc.1), if_neg (fun hc => h1 hc.1)]
        simp

theorem dropWhile_dropWhile_space (s : PyStr) :
    (s.dropWhile isSpaceCode).dropWhile isSpaceCode = s.dropWhile isSpaceCode := by
  induction s with
  | nil => rfl
  | cons a t ih =>
      by_cases hp : isSpaceCode a = true
      · simpa [List.dropWhile_cons, hp] using ih
      · simp [List.dropWhile_cons, hp]

theorem trimR_nil_dropWhile (s : PyStr) (h : trimR s = []) :
    s.dropWhile isSpaceCode = [] := by
  induction s with
  | nil => rfl
  | cons a t ih =>
      by_cases hc : trimR t = [] ∧ isSpaceCode a = true
      · simp [List.dropWhile_cons, hc.2, ih hc.1]
      · simp only [trimR] at h
        rw [if_neg hc] at h
        exact absurd h (by simp)

theorem trimR_dropWhile (s : PyStr) :
    trimR (s.dropWhile isSpaceCode) = (trimR s).dropWhile isSpaceCode := by
  induction s with
  | nil => rfl
  | cons a t ih =>
      by_cases hp : isSpaceCode a = true
      · rcases Classical.em (trimR t = []) with h2 | h2
        · have : trimR (a :: t) = [] := by simp [trimR, h2, hp]
          rw [List.dropWhile_cons_of_pos hp, ih, this, h2]
        · have : trimR (a :: t) = a :: trimR t := by
            simp only [trimR]
            rw [if_neg (fun hc => h2 hc.1)]
          rw [List.dropWhile_cons_of_pos hp, ih, this,
            List.dropWhile_cons_of_pos hp]
      · have h1 : trimR (a :: t) = a :: trimR t := by
          simp only [trimR]
          rw [if_neg (fun hc => hp hc.2)]
        rw [List.dropWhile_cons_of_neg hp, h1, List.dropWhile_cons_of_neg hp]

theorem trimR_idem (s : PyStr) : trimR (trimR s) = trimR s := by
  induction s with
  | nil => rfl
  | cons a t ih =>
      by_cases hc : trimR t = [] ∧ isSpaceCode a = true
      · simp [trimR, hc.1, hc.2]
      · have h1 : trimR (a :: t) = a :: trimR t := by
          simp only [trimR]; rw [if_neg hc]
        rw [h1]
        simp only [trimR]
        rw [ih, if_neg hc]

theorem trimStr_idem (s : PyStr) : trimStr (trimStr s) = trimStr s := by
  unfold trimStr
  rw [trimR_dropWhile, trimR_idem, dropWhile_dropWhile_space]

theorem trimStr_upperStr (s : PyStr) : trimStr (upperStr s) = upperStr (trimStr s) := by
  unfold trimStr
  rw [trimR_upperStr, dropWhile_upperStr]

theorem trimR_append_space (s : PyStr) : trimR (s ++ [32]) = trimR s := by
  induction s with
  | nil => rfl
  | cons a t ih => simp [trimR, ih]

theorem upperStr_append (s t : PyStr) : upperStr (s ++ t) = upperStr s ++ upperStr t :=
  List.map_append upperChar s t

theorem trimStr_append_space (s : PyStr) : trimStr (s ++ [32]) = trimStr s := by
  unfold trimStr
  rw [trimR_append_space]

theorem validate_symbol_fix (s t : PyStr) (h : validate_symbol s = .ok t) (ht : t ≠ []) :
    validate_symbol t = .ok t := by
  by_cases hs : s = []
  · rw [validate_symbol, if_pos hs] at h
    exact absurd h (by simp)
  · rw [validate_symbol, if_neg hs] at h
    have hts : t = trimStr (upperStr s) := by
      injection h with h
      exact h.symm
    rw [validate_symbol, if_neg ht, hts]
    have hA : upperStr (trimStr (upperStr s)) = trimStr (upperStr s) := by
      rw [← trimStr_upperStr (upperStr s), upperStr_idem]
    rw [hA, trimStr_idem]

theorem splitAtBase_eq_find (p : PyStr) (bs : List PyStr) :
    splitAtBase p bs =
      (bs.find? (fun b => endsWithCode p b && decide (b.length < p.length))).map
        (fun b => p.take (p.length - b.length) ++ hyphen :: b) := by
  induction bs with
  | nil => rfl
  | cons b bs ih =>
      have hiff : (endsWithCode p b = true ∧ b.length < p.length) ↔
          ((endsWithCode p b && decide (b.length < p.length)) = true) := by
        simp [Bool.and_eq_true]
      by_cases h : endsWithCode p b = true ∧ b.length < p.length
      · have hfind : List.find? (fun x => endsWithCode p x && decide (x.length < p.length))
            (b :: bs) = some b := List.find?_cons_of_pos _ (hiff.mp h)
        rw [splitAtBase, if_pos h, hfind]
        rfl
      · have hfind : List.find? (fun x => endsWithCode p x && decide (x.length < p.length))
            (b :: bs) = List.find? (fun x => endsWithCode p x && decide (x.length < p.length)) bs :=
          List.find?_cons_of_neg _ (by simpa using fun hc => h (hiff.mpr hc))
        rw [splitAtBase, if_neg h, ih, hfind]

/-- Claim C8, counterexample: the KuCoin normalizer `_format_symbol` is not
idempotent (normalizing the already-normalized "BTC-USDT" yields
"BTC--USDT") and not whitespace-insensitive ("btcusdt " does not normalize
to the same output as "BTCUSDT"). -/
theorem c8_normalize_counterexample :
    format_symbol (format_symbol (sOf "BTCUSDT")) ≠ format_symbol (sOf "BTCUSDT")
    ∧ format_symbol (sOf "btcusdt ") ≠ format_symbol (sOf "BTCUSDT") := by
  decide

/-- Claim C8, amended: the Exchange-A (Binance) normalizer is idempotent on
every input whose normal form is non-empty, case-insensitive, and
insensitive to trailing whitespace on non-empty input; the Exchange-B
(KuCoin) normalizer is case-insensitive but (per the counterexample)
neither idempotent nor whitespace-insensitive. -/
theorem c8_normalize_amended :
    (∀ s t : PyStr, validate_symbol s = .ok t → t ≠ [] → validate_symbol t = .ok t)
    ∧ (∀ s : PyStr, validate_symbol (upperStr s) = validate_symbol s)
    ∧ (∀ s : PyStr, s ≠ [] → validate_symbol (s ++ [32]) = validate_symbol s)
    ∧ (∀ s : PyStr, format_symbol (upperStr s) = format_symbol s)
    ∧ validate_symbol (sOf "btcusdt ") = validate_symbol (sOf "BTCUSDT")
    ∧ format_symbol (sOf "btcusdt") = format_symbol (sOf "BTCUSDT") := by
  refine ⟨validate_symbol_fix, fun s => ?_, fun s hs => ?_, fun s => ?_, by decide, by decide⟩
  · by_cases h : s = []
    · rw [h]
      rfl
    · have h1 : upperStr s ≠ [] := fun hc => h ((upperStr_eq_nil s).mp hc)
      rw [validate_symbol, validate_symbol, if_neg h, if_neg h1, upperStr_idem]
  · have h1 : s ++ [32] ≠ [] := by simp
    have h32 : upperChar 32 = 32 := by decide
    rw [validate_symbol, validate_symbol, if_neg hs, if_neg h1, upperStr_append]
    show Except.ok (trimStr (upperStr s ++ [upperChar 32])) = _
    rw [h32, trimStr_append_space]
  · simp only [format_symbol, upperStr_idem]

/-- Claim C8, witness: instantiation of the amended idempotence at the
already-normalized symbol "BTCUSDT". -/
theorem c8_normalize_amended_witness :
    validate_symbol (sOf "BTCUSDT") = .ok (sOf "BTCUSDT") :=
  c8_normalize_amended.1 (sOf "BTCUSDT") (sOf "BTCUSDT") (by decide) (by decide)

/-- Claim C9: the KuCoin normalizer equals, on the upper-cased input, the
specification algorithm (first priority-ordered quote suffix that is a
strict suffix leaving a non-empty remainder wins, with a last-3-characters
fallback for inputs longer than 3); "ADAUSDT" maps to "ADA-USDT", and it
does so via the USDT suffix match (the priority search finds USDT), not
via the 3-character fallback. -/
theorem c9_suffix_split_algorithm :
    (∀ s : PyStr, format_symbol s = format_symbol_spec (upperStr s))
    ∧ format_symbol (sOf "ADAUSDT") = sOf "ADA-USDT"
    ∧ kucoinBases.find?
        (fun b => endsWithCode (sOf "ADAUSDT") b && decide (b.length < (sOf "ADAUSDT").length))
        = some (sOf "USDT") := by
  refine ⟨fun s => ?_, by decide, by decide⟩
  simp only [format_symbol, format_symbol_spec, splitAtBase_eq_find]
  cases hf : kucoinBases.find?
      (fun b => endsWithCode (upperStr s) b && decide (b.length < (upperStr s).length)) with
  | none => simp [hf]
  | some b => simp [hf]

/-- One raw KuCoin k-line row: the API returns
[time, open, close, high, low, amount, volume]; the timestamp is carried
numerically (epoch seconds, assuming the canonical numeral strings the
exchange emits) and the other columns as the rationals `pd.to_numeric`
produces. -/
structure KRow where
  ts : Nat
  openP : ℚ
  closeP : ℚ
  highP : ℚ
  lowP : ℚ
  amount : ℚ
  volume : ℚ
deriving DecidableEq, Repr

/-- A KuCoin kline client, specialized to one (symbol, interval): the
arguments are the `endAt` and `startAt` bounds of one
`client.get_kline_data` request; a raised request exception is
`Except.error`. -/
abbrev KClient := Nat → Nat → Except Unit (List KRow)

/-- Trace of the pagination while-loop: accumulated raw rows (`all_data`),
the (progress fraction, watermark timestamp) pairs handed to the progress
callback, and the (endAt, startAt) bounds of each issued request. -/
structure FetchOut where
  rows : List KRow
  events : List (ℚ × Nat)
  requests : List (Nat × Nat)
deriving DecidableEq, Repr

/-- Python's binary `min` on rationals. -/
def ratMin (a b : ℚ) : ℚ := if a ≤ b then a else b

/-- Progress value of kucoin_service.py lines 79-80:
`min((end_at_ts - oldest_ts)/(end_at_ts - start_at_ts), 1.0)` with Python
true division, modelled over the rationals. -/
def progressOf (startTs endTs oldest : Nat) : ℚ :=
  ratMin (((endTs : ℚ) - (oldest : ℚ)) / ((endTs : ℚ) - (startTs : ℚ))) 1

/-- The pagination while-loop of kucoin_service.py lines 59-95.  One
iteration: exit if `current_end_ts <= start_at_ts`; issue the request; a
raised error or an empty chunk stops the loop (the error after recording
the issued request); otherwise take the chunk's last row as the oldest
watermark, record the progress event, stop if the watermark is at or
before the start, else continue from `watermark - 1`.  The loop is
fuel-indexed because the Python loop need not terminate against an
adversarial client; every claim is proved for sufficient fuel. -/
def loopGo (client : KClient) (startTs endTs : Nat) : Nat → Nat → FetchOut
  | 0, _ => ⟨[], [], []⟩
  | fuel+1, cur =>
      if cur ≤ startTs then ⟨[], [], []⟩
      else
        match client cur startTs with
        | .error _ => ⟨[], [], [(cur, startTs)]⟩
        | .ok chunk =>
            match chunk.getLast? with
            | none => ⟨[], [], [(cur, startTs)]⟩
            | some lastRow =>
                let ev := (progressOf startTs endTs lastRow.ts, lastRow.ts)
                if lastRow.ts ≤ startTs then ⟨chunk, [ev], [(cur, startTs)]⟩
                else
                  let rest := loopGo client startTs endTs fuel (lastRow.ts - 1)
                  ⟨chunk ++ rest.rows, ev :: rest.events, (cur, startTs) :: rest.requests⟩

/-- `df.drop_duplicates(subset=["Timestamp"])` with pandas' default
keep-first semantics, as a fold over the accumulated rows. -/
def dedupFirstGo (seen : List Nat) : List KRow → List KRow
  | [] => []
  | r :: rs =>
      if r.ts ∈ seen then dedupFirstGo seen rs
      else r :: dedupFirstGo (r.ts :: seen) rs

def dedupFirst (rows : List KRow) : List KRow := dedupFirstGo [] rows

/-- kucoin_service.py line 110: keep rows with
`start_at <= Timestamp <= end_at` (inclusive on both ends). -/
def rangeFilter (startTs endTs : Nat) (rows : List KRow) : List KRow :=
  rows.filter (fun r => decide (startTs ≤ r.ts) && decide (r.ts ≤ endTs))

/-- Sort key of `df.sort_values(by="Timestamp", ascending=True)`. -/
def rowLe (a b : KRow) : Prop := a.ts ≤ b.ts

instance : DecidableRel rowLe := fun a b => Nat.decLe a.ts b.ts
instance : IsTotal KRow rowLe := ⟨fun a b => Nat.le_total a.ts b.ts⟩
instance : IsTrans KRow rowLe := ⟨fun _ _ _ hab hbc => Nat.le_trans hab hbc⟩

/-- The series assembler of kucoin_service.py lines 97-113: empty
accumulation gives an empty DataFrame; otherwise deduplicate by timestamp
(keep first), filter to the inclusive requested range, and sort ascending
by timestamp.  (The final column reorder has no observable effect on the
row records modelled here.) -/
def assemble (startTs endTs : Nat) (rows : List KRow) : List KRow :=
  if rows = [] then []
  else List.insertionSort rowLe (rangeFilter startTs endTs (dedupFirst rows))

/-- Full result of `KuCoinService.get_kline_data_as_dataframe`: the
assembled DataFrame plus the observable loop trace. -/
structure KlineData where
  df : List KRow
  events : List (ℚ × Nat)
  requests : List (Nat × Nat)
deriving DecidableEq, Repr

/-- `KuCoinService.get_kline_data_as_dataframe` (kucoin_service.py lines
39-116), with the already-formatted symbol and interval absorbed into the
client parameter: run the backward pagination loop from `end_at_ts`, then
assemble.  The function catches every request error internally and never
raises. -/
def get_kline_data_as_dataframe (client : KClient) (startTs endTs fuel : Nat) : KlineData :=
  let out := loopGo client startTs endTs fuel endTs
  ⟨assemble startTs endTs out.rows, out.events, out.requests⟩

theorem loopGo_exit (client : KClient) (startTs endTs fuel cur : Nat) (h : cur ≤ startTs) :
    loopGo client startTs endTs fuel cur = ⟨[], [], []⟩ := by
  cases fuel with
  | zero => rfl
  | succ f => simp [loopGo, h]

theorem loopGo_err (client : KClient) (startTs endTs fuel cur : Nat) (u : Unit)
    (h : startTs < cur) (hc : client cur startTs = .error u) :
    loopGo client startTs endTs (fuel + 1) cur = ⟨[], [], [(cur, startTs)]⟩ := by
  simp only [loopGo]
  rw [if_neg (Nat.not_le.mpr h), hc]

theorem loopGo_empty (client : KClient) (startTs endTs fuel cur : Nat)
    (h : startTs < cur) (hc : client cur startTs = .ok []) :
    loopGo client startTs endTs (fuel + 1) cur = ⟨[], [], [(cur, startTs)]⟩ := by
  simp only [loopGo]
  rw [if_neg (Nat.not_le.mpr h), hc]
  rfl

theorem loopGo_page (client : KClient) (startTs endTs fuel cur : Nat)
    (chunk : List KRow) (lastRow : KRow)
    (h : startTs < cur) (hc : client cur startTs = .ok chunk)
    (hl : chunk.getLast? = some lastRow) :
    loopGo client startTs endTs (fuel + 1) cur =
      if lastRow.ts ≤ startTs then
        ⟨chunk, [(progressOf startTs endTs lastRow.ts, lastRow.ts)], [(cur, startTs)]⟩
      else
        ⟨chunk ++ (loopGo client startTs endTs fuel (lastRow.ts - 1)).rows,
          (progressOf startTs endTs lastRow.ts, lastRow.ts) ::
            (loopGo client startTs endTs fuel (lastRow.ts - 1)).events,
          (cur, startTs) :: (loopGo client startTs endTs fuel (lastRow.ts - 1)).requests⟩ := by
  simp only [loopGo]
  rw [if_neg (Nat.not_le.mpr h), hc]
  simp only [hl]

theorem loopGo_requests_bound (client : KClient) (startTs endTs : Nat) :
    ∀ fuel cur q, q ∈ (loopGo client startTs endTs fuel cur).requests →
      startTs < q.1 ∧ q.2 = startTs := by
  intro fuel
  induction fuel with
  | zero =>
      intro cur q hq
      simp [loopGo] at hq
  | succ f ih =>
      intro cur q hq
      by_cases h : cur ≤ startTs
      · rw [loopGo_exit _ _ _ _ _ h] at hq
        simp at hq
      · have h' : startTs < cur := lt_of_not_le h
        cases hcl : client cur startTs with
        | error u =>
            rw [loopGo_err _ _ _ _ _ u h' hcl] at hq
            simp at hq
            exact hq ▸ ⟨h', rfl⟩
        | ok chunk =>
            cases hgl : chunk.getLast? with
            | none =>
                have hnil : chunk = [] := by
                  cases chunk with
                  | nil => rfl
                  | cons a t => simp at hgl
                rw [hnil] at hcl
                rw [loopGo_empty _ _ _ _ _ h' hcl] at hq
                simp at hq
                exact hq ▸ ⟨h', rfl⟩
            | some lastRow =>
                rw [loopGo_page _ _ _ _ _ _ _ h' hcl hgl] at hq
                by_cases hstop : lastRow.ts ≤ startTs
                · rw [if_pos hstop] at hq
                  simp at hq
                  exact hq ▸ ⟨h', rfl⟩
                · rw [if_neg hstop] at hq
                  simp only [List.mem_cons] at hq
                  rcases hq with hq | hq
                  · exact hq ▸ ⟨h', rfl⟩
                  · exact ih _ _ hq

theorem dedupFirstGo_avoids (l : List KRow) :
    ∀ seen t, t ∈ (dedupFirstGo seen l).map (fun r => r.ts) → t ∉ seen := by
  induction l with
  | nil => intro seen t ht; simp [dedupFirstGo] at ht
  | cons r rs ih =>
      intro seen t ht
      by_cases hr : r.ts ∈ seen
      · rw [dedupFirstGo, if_pos hr] at ht
        exact ih seen t ht
      · rw [dedupFirstGo, if_neg hr] at ht
        simp only [List.map_cons, List.mem_cons] at ht
        rcases ht with ht | ht
        · exact ht ▸ hr
        · intro hmem
          exact ih (r.ts :: seen) t ht (List.mem_cons_of_mem _ hmem)

theorem dedupFirstGo_ts_nodup (l : List KRow) :
    ∀ seen, ((dedupFirstGo seen l).map (fun r => r.ts)).Nodup := by
  induction l with
  | nil => intro seen; simp [dedupFirstGo]
  | cons r rs ih =>
      intro seen
      by_cases hr : r.ts ∈ seen
      · rw [dedupFirstGo, if_pos hr]
        exact ih seen
      · rw [dedupFirstGo, if_neg hr]
        simp only [List.map_cons, List.nodup_cons]
        refine ⟨fun hmem => ?_, ih (r.ts :: seen)⟩
        exact dedupFirstGo_avoids rs (r.ts :: seen) r.ts hmem (List.mem_cons_self _ _)

theorem dedupFirstGo_find (l : List KRow) :
    ∀ seen r, r ∈ dedupFirstGo seen l →
      r.ts ∉ seen ∧ l.find? (fun x => x.ts == r.ts) = some r := by
  induction l with
  | nil => intro seen r hr; simp [dedupFirstGo] at hr
  | cons x xs ih =>
      intro seen r hr
      by_cases hx : x.ts ∈ seen
      · rw [dedupFirstGo, if_pos hx] at hr
        obtain ⟨hns, hfind⟩ := ih seen r hr
        have hne : ¬((fun y : KRow => y.ts == r.ts) x = true) := by
          simp only [beq_iff_eq]
          intro hc
          exact hns (hc ▸ hx)
        have hstep : List.find? (fun y : KRow => y.ts == r.ts) (x :: xs) =
            List.find? (fun y : KRow => y.ts == r.ts) xs :=
          List.find?_cons_of_neg _ hne
        exact ⟨hns, hstep.trans hfind⟩
      · rw [dedupFirstGo, if_neg hx] at hr
        rcases List.mem_cons.mp hr with hr | hr
        · subst hr
          exact ⟨hx, List.find?_cons_of_pos _ (by simp)⟩
        · obtain ⟨hns, hfind⟩ := ih (x.ts :: seen) r hr
          have hne : ¬((fun y : KRow => y.ts == r.ts) x = true) := by
            simp only [beq_iff_eq]
            intro hc
            exact hns (hc ▸ List.mem_cons_self _ _)
          have hstep : List.find? (fun y : KRow => y.ts == r.ts) (x :: xs) =
              List.find? (fun y : KRow => y.ts == r.ts) xs :=
            List.find?_cons_of_neg _ hne
          exact ⟨fun hmem => hns (List.mem_cons_of_mem _ hmem), hstep.trans hfind⟩

theorem dedupFirst_find (l : List KRow) (r : KRow) (hr : r ∈ dedupFirst l) :
    l.find? (fun x => x.ts == r.ts) = some r :=
  (dedupFirstGo_find l [] r hr).2

theorem mem_of_mem_dedupFirst (l : List KRow) (r : KRow) (hr : r ∈ dedupFirst l) : r ∈ l :=
  List.mem_of_find?_eq_some (dedupFirst_find l r hr)

theorem assemble_pairwise_lt (startTs endTs : Nat) (rows : List KRow) :
    (assemble startTs endTs rows).Pairwise (fun a b => a.ts < b.ts) := by
  unfold assemble
  by_cases hrows : rows = []
  · rw [if_pos hrows]
    exact List.Pairwise.nil
  · rw [if_neg hrows]
    set l := rangeFilter startTs endTs (dedupFirst rows) with hl
    have hsort : List.Pairwise rowLe (List.insertionSort rowLe l) :=
      List.sorted_insertionSort rowLe l
    have hperm : List.Perm (List.insertionSort rowLe l) l := List.perm_insertionSort rowLe l
    have hnodup_l : (l.map (fun r => r.ts)).Nodup := by
      have hsub : List.Sublist l (dedupFirst rows) := List.filter_sublist _
      exact ((dedupFirstGo_ts_nodup rows []).sublist (hsub.map _))
    have hnodup_sorted : ((List.insertionSort rowLe l).map (fun r => r.ts)).Nodup :=
      (List.Perm.nodup_iff (hperm.map _)).mpr hnodup_l
    have hne : List.Pairwise (fun a b : KRow => a.ts ≠ b.ts) (List.insertionSort rowLe l) :=
      List.pairwise_map.mp hnodup_sorted
    exact (hsort.and hne).imp (fun hab => lt_of_le_of_ne hab.1 hab.2)

theorem assemble_mem_range (startTs endTs : Nat) (rows : List KRow) (r : KRow)
    (h : r ∈ assemble startTs endTs rows) : startTs ≤ r.ts ∧ r.ts ≤ endTs := by
  unfold assemble at h
  by_cases hrows : rows = []
  · rw [if_pos hrows] at h
    simp at h
  · rw [if_neg hrows] at h
    have hmem : r ∈ rangeFilter startTs endTs (dedupFirst rows) :=
      (List.perm_insertionSort rowLe _).subset h
    have := List.of_mem_filter hmem
    simpa using this

theorem assemble_mem_first (startTs endTs : Nat) (rows : List KRow) (r : KRow)
    (h : r ∈ assemble startTs endTs rows) :
    rows.find? (fun x => x.ts == r.ts) = some r := by
  unfold assemble at h
  by_cases hrows : rows = []
  · rw [if_pos hrows] at h
    simp at h
  · rw [if_neg hrows] at h
    have hmem : r ∈ rangeFilter startTs endTs (dedupFirst rows) :=
      (List.perm_insertionSort rowLe _).subset h
    exact dedupFirst_find rows r (List.mem_of_mem_filter hmem)

/-- A trivial candle at timestamp `t`, for mock pages. -/
def mkRow (t : Nat) : KRow := ⟨t, 0, 0, 0, 0, 0, 0⟩

/-- A descending run of `n` unit-spaced mock candles starting at `top`:
[top, top-1, ..., top-n+1]. -/
def descRun (top : Nat) : Nat → List KRow
  | 0 => []
  | n + 1 => mkRow top :: descRun (top - 1) n

/-- One page of the mocked backward-paging source: the `L` most recent
unit-interval candles of [startAt, endAt], most recent first. -/
def pageOf (L startAt endAt : Nat) : List KRow :=
  descRun endAt (min L (endAt - startAt + 1))

/-- The mocked backward-paging source of spec property P4: candles exist at
every unit timestamp, pages are non-overlapping, descending, of at most
`L` rows, and cover the requested range; the source never fails. -/
def mockClient (L : Nat) : KClient :=
  fun endAt startAt => .ok (pageOf L startAt endAt)

theorem descRun_ne_nil (top n : Nat) (hn : 1 ≤ n) : descRun top n ≠ [] := by
  cases n with
  | zero => omega
  | succ m => simp [descRun]

theorem descRun_getLast (top n : Nat) :
    (descRun top (n + 1)).getLast? = some (mkRow (top - n)) := by
  induction n generalizing top with
  | zero => simp [descRun]
  | succ m ih =>
      show (mkRow top :: descRun (top - 1) (m + 1)).getLast? = some (mkRow (top - (m + 1)))
      rw [List.getLast?_cons, ih (top - 1)]
      have : top - 1 - m = top - (m + 1) := by omega
      simp [this]

theorem mock_page_eq (L startTs R : Nat) :
    mockClient L (startTs + R) startTs = .ok (descRun (startTs + R) (min L (R + 1))) := by
  unfold mockClient pageOf
  rw [Nat.add_sub_cancel_left]

theorem mock_requests_len (L : Nat) (hL : 1 ≤ L) :
    ∀ fuel R startTs endTs, 1 ≤ R → R ≤ fuel →
      ((loopGo (mockClient L) startTs endTs fuel (startTs + R)).requests).length
        = (R + L - 1) / L := by
  intro fuel
  induction fuel with
  | zero => intro R startTs endTs hR hRf; omega
  | succ f ih =>
      intro R startTs endTs hR hRf
      have hcur : startTs < startTs + R := by omega
      obtain ⟨m', hm'⟩ : ∃ m', min L (R + 1) = m' + 1 := ⟨min L (R + 1) - 1, by omega⟩
      have hlast : (descRun (startTs + R) (min L (R + 1))).getLast? =
          some (mkRow (startTs + R - m')) := by
        rw [hm']
        exact descRun_getLast _ _
      have hstep := loopGo_page (mockClient L) startTs endTs f (startTs + R) _ _
        hcur (mock_page_eq L startTs R) hlast
      by_cases hA : R + 1 ≤ L
      · have hmval : m' = R := by
          have : min L (R + 1) = R + 1 := by omega
          omega
        have hts : (mkRow (startTs + R - m')).ts ≤ startTs := by
          simp [mkRow, hmval]
        rw [hstep, if_pos hts]
        have h1 : 1 * L ≤ R + L - 1 := by omega
        have h2 : R + L - 1 < (1 + 1) * L := by omega
        simp [Nat.div_eq_of_lt_le h1 h2]
      · have hmval : m' = L - 1 := by
          have : min L (R + 1) = L := by omega
          omega
        have htsval : (mkRow (startTs + R - m')).ts = startTs + (R - L + 1) := by
          simp [mkRow]
          omega
        have hts : ¬((mkRow (startTs + R - m')).ts ≤ startTs) := by
          rw [htsval]
          omega
        rw [hstep, if_neg hts]
        have hnext : (mkRow (startTs + R - m')).ts - 1 = startTs + (R - L) := by
          rw [htsval]
          omega
        by_cases hRL : R = L
        · have hz : (mkRow (startTs + R - m')).ts - 1 = startTs := by omega
          rw [hz]
          simp only [List.length_cons]
          rw [loopGo_exit (mockClient L) startTs endTs f startTs (le_refl startTs)]
          have h1 : 1 * L ≤ R + L - 1 := by omega
          have h2 : R + L - 1 < (1 + 1) * L := by omega
          simp [Nat.div_eq_of_lt_le h1 h2]
        · have hLR : L < R := by omega
          rw [hnext]
          simp only [List.length_cons]
          rw [ih (R - L) startTs endTs (by omega) (by omega)]
          have heq : R - L + L - 1 = R - 1 := by omega
          have heq2 : R + L - 1 = (R - 1) + L := by omega
          rw [heq, heq2, Nat.add_div_right _ (by omega : 0 < L)]

attribute [local semireducible] Rat.sub Rat.mul Rat.inv Rat.add

theorem mem_of_getLast?_eq (l : List KRow) (a : KRow) (h : l.getLast? = some a) : a ∈ l := by
  induction l with
  | nil => simp at h
  | cons x t ih =>
      cases t with
      | nil =>
          simp [List.getLast?] at h
          simp [h]
      | cons y t2 =>
          rw [List.getLast?_cons_cons] at h
          exact List.mem_cons_of_mem _ (ih h)

theorem getLast_min_of_desc (chunk : List KRow) (lastRow : KRow)
    (hl : chunk.getLast? = some lastRow)
    (hd : List.Pairwise (fun a b => b.ts ≤ a.ts) chunk) :
    ∀ r ∈ chunk, lastRow.ts ≤ r.ts := by
  induction chunk with
  | nil => simp at hl
  | cons a t ih =>
      intro r hr
      cases t with
      | nil =>
          simp [List.getLast?] at hl
          simp at hr
          simp [hr, hl]
      | cons b t2 =>
          rw [List.getLast?_cons_cons] at hl
          have hp := List.pairwise_cons.mp hd
          rcases List.mem_cons.mp hr with hr | hr
          · subst hr
            exact hp.1 lastRow (mem_of_getLast?_eq _ _ hl)
          · exact ih hl hp.2 r hr

/-- Client for the C3 counterexample: the (adversarial) page returned for
the initial request ending at 10 is ascending, [ts 1, ts 5], so its last
row (5) is not its minimum open time (1); any other request gets an empty
page. -/
def c3client : KClient := fun endAt _ =>
  if endAt = 10 then .ok [mkRow 1, mkRow 5] else .ok []

/-- Claim C3, counterexample: the code computes the pagination watermark as
the open time of the LAST row of the page (`kline_chunk[-1][0]`), not the
minimum open time.  For the page [ts 1, ts 5] over the range [0, 10] the
reported progress is (10 - 5)/(10 - 0) = 1/2, while the claimed formula
(end - min)/(end - start) gives (10 - 1)/(10 - 0) = 9/10. -/
theorem c3_progress_counterexample :
    (get_kline_data_as_dataframe c3client 0 10 3).events = [((1 : ℚ)/2, 5)]
    ∧ ([mkRow 1, mkRow 5].map (fun r => r.ts)).min? = some 1
    ∧ ((10 : ℚ) - 1) / ((10 : ℚ) - 0) = 9/10
    ∧ ((9 : ℚ)/10) ≠ (1 : ℚ)/2 := by
  refine ⟨by decide, by decide, by norm_num, by norm_num⟩

/-- Client for spec Scenario C: three one-day pages, descending backward
from 2024-01-03 (epoch 1704240000) to 2024-01-01 (epoch 1704067200), one
daily candle per page, keyed by the cursor value the loop issues. -/
def scCClient : KClient := fun endAt _ =>
  if endAt = 1704240000 then .ok [mkRow 1704240000]
  else if endAt = 1704239999 then .ok [mkRow 1704153600]
  else if endAt = 1704153599 then .ok [mkRow 1704067200]
  else .ok []

/-- Claim C3, amended: for every non-empty page, the iteration accumulates
the page, takes the watermark `oldest` as the open time of the page's LAST
row (which equals the minimum open time whenever the page is descending,
as KuCoin pages are), reports progress (end - oldest)/(end - start) capped
above at 1.0 (there is no lower clamp in the code), stops when
oldest <= start, and otherwise continues from cursor oldest - 1.  In
Scenario C (start 2024-01-01, end 2024-01-03, three one-day pages) the
assembled series is the three candles in ascending order and the reported
fractions are [0, 1/2, 1]: monotonically non-decreasing and ending at
1.0. -/
theorem c3_progress_amended :
    (∀ (client : KClient) (startTs endTs fuel cur : Nat)
       (chunk : List KRow) (lastRow : KRow),
      startTs < cur → client cur startTs = .ok chunk → chunk.getLast? = some lastRow →
      loopGo client startTs endTs (fuel + 1) cur =
        if lastRow.ts ≤ startTs then
          ⟨chunk, [(ratMin (((endTs : ℚ) - (lastRow.ts : ℚ)) / ((endTs : ℚ) - (startTs : ℚ))) 1,
            lastRow.ts)], [(cur, startTs)]⟩
        else
          ⟨chunk ++ (loopGo client startTs endTs fuel (lastRow.ts - 1)).rows,
            (ratMin (((endTs : ℚ) - (lastRow.ts : ℚ)) / ((endTs : ℚ) - (startTs : ℚ))) 1,
              lastRow.ts) :: (loopGo client startTs endTs fuel (lastRow.ts - 1)).events,
            (cur, startTs) :: (loopGo client startTs endTs fuel (lastRow.ts - 1)).requests⟩)
    ∧ (∀ (chunk : List KRow) (lastRow : KRow), chunk.getLast? = some lastRow →
        List.Pairwise (fun a b => b.ts ≤ a.ts) chunk → ∀ r ∈ chunk, lastRow.ts ≤ r.ts)
    ∧ (get_kline_data_as_dataframe scCClient 1704067200 1704240000 5).df
        = [mkRow 1704067200, mkRow 1704153600, mkRow 1704240000]
    ∧ (get_kline_data_as_dataframe scCClient 1704067200 1704240000 5).events.map Prod.fst
        = [0, 1/2, 1]
    ∧ List.Chain' (· ≤ ·)
        ((get_kline_data_as_dataframe scCClient 1704067200 1704240000 5).events.map Prod.fst)
    ∧ ((get_kline_data_as_dataframe scCClient 1704067200 1704240000 5).events.map
        Prod.fst).getLast? = some 1 := by
  refine ⟨fun client startTs endTs fuel cur chunk lastRow h hc hl => ?_,
    getLast_min_of_desc, by decide, by decide, ?_, by decide⟩
  · exact loopGo_page client startTs endTs fuel cur chunk lastRow h hc hl
  · have hev : (get_kline_data_as_dataframe scCClient 1704067200 1704240000 5).events.map
        Prod.fst = [0, 1/2, 1] := by decide
    rw [hev]
    refine List.chain'_cons.mpr ⟨by norm_num, List.chain'_cons.mpr ⟨by norm_num, ?_⟩⟩
    exact List.chain'_singleton 1

/-- Claim C3, witness: the amended step equation instantiated at the first
Scenario C iteration (cursor 1704240000, one fuel unit), with its if
resolved and the recursive tail evaluated. -/
theorem c3_progress_amended_witness :
    loopGo scCClient 1704067200 1704240000 1 1704240000 =
      ⟨[mkRow 1704240000],
        [(ratMin (((1704240000 : ℚ) - ((1704240000 : Nat) : ℚ)) /
            ((1704240000 : ℚ) - ((1704067200 : Nat) : ℚ))) 1, 1704240000)],
        [(1704240000, 1704067200)]⟩ := by
  have h := c3_progress_amended.1 scCClient 1704067200 1704240000 0 1704240000
    [mkRow 1704240000] (mkRow 1704240000) (by omega) (by decide) (by decide)
  rw [h, if_neg (by decide)]
  decide

/-- Claim C4: against the mocked backward-paging source (unit-interval
candles, non-overlapping descending pages of up to L rows covering
[start, end]), the pagination loop issues exactly
ceil(range / L) = (range + L - 1) / L requests; for ANY client every
issued request has its end bound strictly above the requested start; and
an empty page always stops pagination (that iteration contributes its
request and nothing else, and no further request is issued). -/
theorem c4_backward_pagination_termination (L startTs endTs : Nat)
    (hL : 1 ≤ L) (hrange : startTs < endTs) :
    ((get_kline_data_as_dataframe (mockClient L) startTs endTs (endTs - startTs)).requests).length
      = (endTs - startTs + L - 1) / L
    ∧ (∀ (client : KClient) (fuel cur : Nat) (q : Nat × Nat),
        q ∈ (loopGo client startTs endTs fuel cur).requests → startTs < q.1)
    ∧ (∀ (client : KClient) (fuel cur : Nat), startTs < cur → client cur startTs = .ok [] →
        loopGo client startTs endTs (fuel + 1) cur = ⟨[], [], [(cur, startTs)]⟩) := by
  refine ⟨?_,
    fun client fuel cur q hq => (loopGo_requests_bound client startTs endTs fuel cur q hq).1,
    fun client fuel cur h hc => loopGo_empty client startTs endTs fuel cur h hc⟩
  obtain ⟨R, hR1, hRe⟩ : ∃ R, 1 ≤ R ∧ endTs = startTs + R :=
    ⟨endTs - startTs, by omega, by omega⟩
  subst hRe
  show (loopGo (mockClient L) startTs (startTs + R) (startTs + R - startTs)
      (startTs + R)).requests.length = (startTs + R - startTs + L - 1) / L
  have hRR : startTs + R - startTs = R := by omega
  rw [hRR]
  exact mock_requests_len L hL R R startTs (startTs + R) hR1 (le_refl R)

/-- Claim C4, witness: the mocked source with page size 2 over the range
[0, 5] is drained in exactly ceil(5/2) = 3 requests. -/
theorem c4_backward_pagination_termination_witness :
    ((get_kline_data_as_dataframe (mockClient 2) 0 5 (5 - 0)).requests).length
      = (5 - 0 + 2 - 1) / 2 :=
  (c4_backward_pagination_termination 2 0 5 (by decide) (by decide)).1

/-- Client for spec Scenario D: page 1 (the request ending at 200)
succeeds with one candle; every later request raises. -/
def scDClient : KClient := fun endAt _ =>
  if endAt = 200 then .ok [mkRow 200] else .error ()

/-- Claim C6: a request error during backward pagination stops the loop at
once (the failing iteration contributes only its issued request: no rows,
no further iterations), and the fetch still returns normally with the
series assembled from the pages accumulated before the failure - the
model's return type, like the Python function, has no exception channel
because every loop error is caught.  In Scenario D (error on page 2 of a
3-page fetch) the returned series is exactly the page-1 candle. -/
theorem c6_error_partial_result :
    (∀ (client : KClient) (startTs endTs fuel cur : Nat) (u : Unit),
      startTs < cur → client cur startTs = .error u →
      loopGo client startTs endTs (fuel + 1) cur = ⟨[], [], [(cur, startTs)]⟩)
    ∧ get_kline_data_as_dataframe scDClient 0 200 3
        = ⟨[mkRow 200], [(0, 200)], [(200, 0), (199, 0)]⟩ := by
  exact ⟨fun client startTs endTs fuel cur u h hc =>
    loopGo_err client startTs endTs fuel cur u h hc, by decide⟩

/-- Claim C6, witness: the error-step equation instantiated at the failing
second request of Scenario D. -/
theorem c6_error_partial_result_witness :
    loopGo scDClient 0 200 1 199 = ⟨[], [], [(199, 0)]⟩ :=
  c6_error_partial_result.1 scDClient 0 200 0 199 () (by omega) (by decide)

/-- Claim C10: every row of the assembled series is the FIRST row with its
open time in fetch-accumulation order (pandas drop_duplicates keep="first"
runs before the range filter and the sort), and concretely, of two
accumulated rows sharing open time 5 the first-accumulated one (open
price 1), not the last-seen one (open price 2), survives. -/
theorem c10_dedup_keeps_first :
    (∀ (startTs endTs : Nat) (rows : List KRow) (r : KRow),
      r ∈ assemble startTs endTs rows → rows.find? (fun x => x.ts == r.ts) = some r)
    ∧ assemble 0 10 [⟨5, 1, 0, 0, 0, 0, 0⟩, ⟨5, 2, 0, 0, 0, 0, 0⟩]
        = [⟨5, 1, 0, 0, 0, 0, 0⟩] :=
  ⟨assemble_mem_first, by decide⟩

/-- Claim C10, witness: the first-occurrence property instantiated at the
duplicate pair of the concrete example. -/
theorem c10_dedup_keeps_first_witness :
    List.find? (fun x : KRow => x.ts == (⟨5, 1, 0, 0, 0, 0, 0⟩ : KRow).ts)
      ([⟨5, 1, 0, 0, 0, 0, 0⟩, ⟨5, 2, 0, 0, 0, 0, 0⟩] : List KRow)
      = some ⟨5, 1, 0, 0, 0, 0, 0⟩ :=
  c10_dedup_keeps_first.1 0 10 [⟨5, 1, 0, 0, 0, 0, 0⟩, ⟨5, 2, 0, 0, 0, 0, 0⟩]
    ⟨5, 1, 0, 0, 0, 0, 0⟩ (by decide)

/-- Result of one attempt of a call wrapped by `retry_on_api_error`:
success, an exception of the retried classes (RequestException or
BinanceAPIException), or any other exception. -/
inductive CallRes (ε α : Type) : Type
  | ok (a : α)
  | transient (e : ε)
  | fatal (e : ε)
deriving DecidableEq

/-- Observable outcome of the retry wrapper: a returned value, an
immediately re-raised non-retried exception, or the final
`raise last_exception` (whose payload is None - itself a TypeError - in
the degenerate `max_retries = 0` case where no attempt ever ran). -/
inductive ROut (ε α : Type) : Type
  | ok (a : α)
  | raisedFatal (e : ε)
  | raisedLast (e : Option ε)
deriving DecidableEq

/-- Trace of one wrapped call: its outcome, how many times the wrapped
function was invoked, and the sleep durations in order. -/
structure RetryTrace (ε α : Type) : Type where
  result : ROut ε α
  calls : Nat
  sleeps : List ℚ
deriving DecidableEq

/-- The attempt loop of `retry_on_api_error` (binance_service.py lines
38-59), indexed by the remaining iteration count `k = max_retries -
attempt`: on a transient error store it, sleep `delay * 2 ^ attempt`
unless this was the final attempt, and continue; on any other exception
re-raise at once; when attempts are exhausted, raise the stored last
exception. -/
def retryFrom {ε α : Type} (f : Nat → CallRes ε α) (delay : ℚ) (maxR : Nat) :
    Nat → Nat → Option ε → RetryTrace ε α
  | 0, _, last => ⟨.raisedLast last, 0, []⟩
  | k + 1, attempt, _ =>
      match f attempt with
      | .ok a => ⟨.ok a, 1, []⟩
      | .fatal e => ⟨.raisedFatal e, 1, []⟩
      | .transient e =>
          let sl : List ℚ := if attempt + 1 < maxR then [delay * 2 ^ attempt] else []
          let rest := retryFrom f delay maxR k (attempt + 1) (some e)
          ⟨rest.result, rest.calls + 1, sl ++ rest.sleeps⟩

/-- The decorator `retry_on_api_error(max_retries, delay)` applied to one
wrapped call `f` (indexed by attempt number). -/
def retry_on_api_error {ε α : Type} (maxR : Nat) (delay : ℚ) (f : Nat → CallRes ε α) :
    RetryTrace ε α :=
  retryFrom f delay maxR maxR 0 none

theorem retryFrom_succ_transient {ε α : Type} (f : Nat → CallRes ε α) (delay : ℚ)
    (maxR k attempt : Nat) (last : Option ε) (e : ε) (hf : f attempt = .transient e) :
    retryFrom f delay maxR (k + 1) attempt last =
      ⟨(retryFrom f delay maxR k (attempt + 1) (some e)).result,
        (retryFrom f delay maxR k (attempt + 1) (some e)).calls + 1,
        (if attempt + 1 < maxR then [delay * 2 ^ attempt] else []) ++
          (retryFrom f delay maxR k (attempt + 1) (some e)).sleeps⟩ := by
  rw [retryFrom, hf]

theorem retryFrom_all_transient {ε α : Type} (f : Nat → CallRes ε α) (delay : ℚ)
    (maxR : Nat) (errF : Nat → ε)
    (hf : ∀ i, i < maxR → f i = .transient (errF i)) :
    ∀ k attempt last, attempt + k = maxR → 1 ≤ k →
      retryFrom f delay maxR k attempt last =
        ⟨.raisedLast (some (errF (maxR - 1))), k,
          (List.range' attempt (k - 1)).map (fun i => delay * 2 ^ i)⟩ := by
  intro k
  induction k with
  | zero => intro attempt last hsum h1; omega
  | succ k ih =>
      intro attempt last hsum h1
      have hattempt : attempt < maxR := by omega
      rw [retryFrom_succ_transient f delay maxR k attempt last (errF attempt)
        (hf attempt hattempt)]
      cases k with
      | zero =>
          have hlastA : attempt = maxR - 1 := by omega
          have hsl : ¬(attempt + 1 < maxR) := by omega
          simp only [retryFrom, if_neg hsl]
          rw [hlastA]
          rfl
      | succ k2 =>
          have hsl : attempt + 1 < maxR := by omega
          rw [if_pos hsl, ih (attempt + 1) (some (errF attempt)) (by omega) (by omega)]
          have hrange : List.range' attempt (k2 + 1 + 1 - 1) =
              attempt :: List.range' (attempt + 1) (k2 + 1 - 1) := rfl
          rw [hrange]
          rfl

theorem retryFrom_result_ok {ε α : Type} (f : Nat → CallRes ε α) (delay : ℚ) (maxR : Nat) :
    ∀ k attempt last a, (retryFrom f delay maxR k attempt last).result = .ok a →
      ∃ i, f i = .ok a := by
  intro k
  induction k with
  | zero =>
      intro attempt last a h
      simp [retryFrom] at h
  | succ k ih =>
      intro attempt last a h
      cases hf : f attempt with
      | ok b =>
          refine ⟨attempt, ?_⟩
          rw [retryFrom, hf] at h
          simp at h
          rw [hf, h]
      | fatal e =>
          rw [retryFrom, hf] at h
          simp at h
      | transient e =>
          rw [retryFrom, hf] at h
          exact ih (attempt + 1) (some e) a h

/-- Claim C5: a wrapped call that raises a transient error on every
attempt is attempted exactly `max_retries` times, sleeping
`delay * 2 ^ attempt` between consecutive attempts (so for attempts
0 .. max_retries - 2), and then the last transient error is re-raised; a
call whose first attempt raises a non-transient error propagates it
immediately after exactly one invocation with no sleeps.  The service
wraps `get_historical_klines` with the decorator's `max_retries = 3` and
default `delay = 1.0`. -/
theorem c5_retry_exhaustion :
    (∀ (ε α : Type) (f : Nat → CallRes ε α) (delay : ℚ) (maxR : Nat) (errF : Nat → ε),
      1 ≤ maxR → (∀ i, i < maxR → f i = .transient (errF i)) →
      retry_on_api_error maxR delay f =
        ⟨.raisedLast (some (errF (maxR - 1))), maxR,
          (List.range (maxR - 1)).map (fun i => delay * 2 ^ i)⟩)
    ∧ (∀ (ε α : Type) (f : Nat → CallRes ε α) (delay : ℚ) (maxR : Nat) (e : ε),
        1 ≤ maxR → f 0 = .fatal e →
        retry_on_api_error maxR delay f = ⟨.raisedFatal e, 1, []⟩) := by
  constructor
  · intro ε α f delay maxR errF hmax hf
    unfold retry_on_api_error
    rw [retryFrom_all_transient f delay maxR errF hf maxR 0 none (by omega) hmax,
      List.range_eq_range']
  · intro ε α f delay maxR e hmax hf
    obtain ⟨m, hm⟩ : ∃ m, maxR = m + 1 := ⟨maxR - 1, by omega⟩
    subst hm
    unfold retry_on_api_error
    rw [retryFrom, hf]

/-- A call that raises a transient error on every attempt, carrying the
attempt index as the error payload. -/
def alwaysTransient : Nat → CallRes Nat Unit := fun i => .transient i

/-- Claim C5, witness: with `max_retries = 3` and `delay = 1` the
always-transient call is invoked 3 times, sleeps 1 then 2 time units, and
raises the error of the last attempt (index 2). -/
theorem c5_retry_exhaustion_witness :
    retry_on_api_error 3 1 alwaysTransient = ⟨.raisedLast (some 2), 3, [1, 2]⟩ := by
  have h := c5_retry_exhaustion.1 Nat Unit alwaysTransient 1 3 (fun i => i) (by decide)
    (fun i _ => rfl)
  rw [h]
  decide

/-- The exception kinds observable around the Binance service: the
ValueError of `_validate_symbol`, and the transiently retried
RequestException / BinanceAPIException classes. -/
inductive BErr : Type
  | valueErr
  | reqErr
  | apiErr
  | otherErr
deriving DecidableEq

/-- One raw Binance kline row, positionally [OpenTime, Open, High, Low,
Close, Volume, CloseTime, QuoteAssetVolume, NumberOfTrades,
TakerBuyBaseAssetVolume, TakerBuyQuoteAssetVolume, CanBeIgnored]; the two
times in epoch milliseconds. -/
structure BRaw where
  openTime : Nat
  openP : ℚ
  highP : ℚ
  lowP : ℚ
  closeP : ℚ
  volume : ℚ
  closeTime : Nat
  quoteAssetVolume : ℚ
  numberOfTrades : Nat
  takerBuyBase : ℚ
  takerBuyQuote : ℚ
  canBeIgnored : ℚ
deriving DecidableEq

/-- A processed Binance record: `_process_dataframe` (binance_service.py
lines 92-107) converts the two time columns, coerces the numeric columns,
and drops CanBeIgnored; values and row order are preserved. -/
structure BRec where
  openTime : Nat
  openP : ℚ
  highP : ℚ
  lowP : ℚ
  closeP : ℚ
  volume : ℚ
  closeTime : Nat
  quoteAssetVolume : ℚ
  numberOfTrades : Nat
  takerBuyBase : ℚ
  takerBuyQuote : ℚ
deriving DecidableEq

def processRow (r : BRaw) : BRec :=
  ⟨r.openTime, r.openP, r.highP, r.lowP, r.closeP, r.volume, r.closeTime,
    r.quoteAssetVolume, r.numberOfTrades, r.takerBuyBase, r.takerBuyQuote⟩

/-- `BinanceReadService._process_dataframe`: row-wise conversion (the
empty-DataFrame early return coincides with mapping over no rows). -/
def process_dataframe (rows : List BRaw) : List BRec := rows.map processRow

/-- The external `client.get_historical_klines` capability: per attempt
index it receives the validated symbol and the requested range and either
returns rows, raises a transient-class error, or raises anything else. -/
abbrev BClient := Nat → PyStr → Nat → Option Nat → CallRes BErr (List BRaw)

/-- One attempt of `get_historical_klines` (binance_service.py lines
109-123) as executed inside the retry wrapper: `_validate_symbol` raises
ValueError on an empty symbol BEFORE the client is touched (a
non-transient exception for the wrapper); otherwise the external client
is called with the validated symbol and the range. -/
def klinesAttempt (symbol : PyStr) (startT : Nat) (endT : Option Nat) (client : BClient)
    (i : Nat) : CallRes BErr (List BRaw) :=
  if symbol = [] then .fatal .valueErr
  else client i (trimStr (upperStr symbol)) startT endT

/-- `BinanceReadService.get_historical_klines`: the attempt wrapped by
`retry_on_api_error(max_retries=3)` with the default delay 1.0. -/
def get_historical_klines (symbol : PyStr) (startT : Nat) (endT : Option Nat)
    (client : BClient) : RetryTrace BErr (List BRaw) :=
  retry_on_api_error 3 1 (klinesAttempt symbol startT endT client)

/-- `BinanceReadService.get_historical_data_as_dataframe`
(binance_service.py lines 125-142): empty klines give an empty DataFrame;
any exception is caught and ALSO yields an empty DataFrame (`return
pd.DataFrame()` in the except branch), so the function never raises -
its error channel is provably unused. -/
def get_historical_data_as_dataframe (symbol : PyStr) (startT : Nat) (endT : Option Nat)
    (client : BClient) : Except BErr (List BRec) :=
  match (get_historical_klines symbol startT endT client).result with
  | .ok rows => .ok (if rows = [] then [] else process_dataframe rows)
  | .raisedFatal _ => .ok []
  | .raisedLast _ => .ok []

/-- The error kinds of the pre-submission validation in the UI layer
(streamlit_app.py lines 56-62). -/
inductive UIErr : Type
  | emptySymbol
  | badRange
  | futureStart
deriving DecidableEq

/-- The input validation the UI performs before any service call
(streamlit_app.py lines 56-62): empty symbol, start date not strictly
before end date, start date in the future. -/
def uiValidate (symbol : PyStr) (startD endD today : Nat) : Option UIErr :=
  if symbol = [] then some .emptySymbol
  else if endD ≤ startD then some .badRange
  else if today < startD then some .futureStart
  else none

theorem get_historical_data_ok_shape (symbol : PyStr) (startT : Nat) (endT : Option Nat)
    (client : BClient) (rows : List BRec)
    (h : get_historical_data_as_dataframe symbol startT endT client = .ok rows) :
    rows = [] ∨ ∃ raws, (∃ i, client i (trimStr (upperStr symbol)) startT endT = .ok raws)
      ∧ rows = process_dataframe raws := by
  unfold get_historical_data_as_dataframe at h
  cases hres : (get_historical_klines symbol startT endT client).result with
  | ok raws =>
      rw [hres] at h
      simp only [Except.ok.injEq] at h
      by_cases hr : raws = []
      · left
        rw [← h, if_pos hr]
      · right
        obtain ⟨i, hi⟩ := retryFrom_result_ok (klinesAttempt symbol startT endT client)
          1 3 3 0 none raws hres
        have hsym : symbol ≠ [] := by
          intro hc
          rw [klinesAttempt, if_pos hc] at hi
          exact absurd hi (by simp)
        rw [klinesAttempt, if_neg hsym] at hi
        exact ⟨raws, ⟨i, hi⟩, by rw [← h, if_neg hr]⟩
  | raisedFatal e =>
      rw [hres] at h
      simp only [Except.ok.injEq] at h
      left
      exact h.symm
  | raisedLast e =>
      rw [hres] at h
      simp only [Except.ok.injEq] at h
      left
      exact h.symm

/-- A client whose every call raises a transient API error (it is never
reached when the symbol is empty). -/
def alwaysApiErr : BClient := fun _ _ _ _ => .transient .apiErr

/-- Claim C7, counterexample: for the invalid input of an empty symbol the
caller-facing `get_historical_data_as_dataframe` does NOT propagate the
InvalidInput (ValueError) - its catch-all except branch converts it into
a successful empty DataFrame. -/
theorem c7_invalid_input_counterexample :
    get_historical_data_as_dataframe [] 0 none alwaysApiErr = .ok []
    ∧ (Except.ok ([] : List BRec) : Except BErr (List BRec)) ≠ .error .valueErr := by
  exact ⟨by decide, by decide⟩

/-- Claim C7, amended: an empty symbol makes `get_historical_klines`
raise ValueError on its first attempt, before any network call (the
outcome is independent of the client) and without retry or sleep; but
`get_historical_data_as_dataframe` catches that error and returns a
successful empty DataFrame instead of propagating it.  The checks
start >= end and start-in-the-future exist only in the UI layer, which
rejects such inputs before any service call. -/
theorem c7_invalid_input_amended :
    (∀ (startT : Nat) (endT : Option Nat) (client : BClient),
      get_historical_klines [] startT endT client = ⟨.raisedFatal .valueErr, 1, []⟩)
    ∧ (∀ (startT : Nat) (endT : Option Nat) (c1 c2 : BClient),
        get_historical_klines [] startT endT c1 = get_historical_klines [] startT endT c2)
    ∧ (∀ (startT : Nat) (endT : Option Nat) (client : BClient),
        get_historical_data_as_dataframe [] startT endT client = .ok [])
    ∧ (∀ (symbol : PyStr) (startD endD today : Nat),
        symbol = [] ∨ endD ≤ startD ∨ today < startD →
        (uiValidate symbol startD endD today).isSome = true) := by
  refine ⟨fun startT endT client => rfl, fun startT endT c1 c2 => rfl,
    fun startT endT client => rfl, fun symbol sd ed td h => ?_⟩
  unfold uiValidate
  by_cases h1 : symbol = []
  · simp [h1]
  · rw [if_neg h1]
    by_cases h2 : ed ≤ sd
    · simp [h2]
    · rw [if_neg h2]
      have h3 : td < sd := by
        rcases h with h | h | h
        · exact absurd h h1
        · exact absurd h h2
        · exact h
      simp [h3]

/-- Claim C7, witness: the UI validation flags a concrete invalid input
(empty symbol). -/
theorem c7_invalid_input_amended_witness :
    (uiValidate [] 5 10 20).isSome = true :=
  c7_invalid_input_amended.2.2.2 [] 5 10 20 (Or.inl rfl)

/-- A Binance raw row at open time `t` (close time `t + 1`, all other
fields zero). -/
def brawAt (t : Nat) : BRaw := ⟨t, 0, 0, 0, 0, 0, t + 1, 0, 0, 0, 0, 0⟩

/-- A client that answers every request with the out-of-order page
[open time 2, open time 1]. -/
def unorderedClient : BClient := fun _ _ _ _ => .ok [brawAt 2, brawAt 1]

/-- Claim C1, counterexample: the Binance path performs no sorting and no
deduplication, so when the underlying client returns rows out of order
the fetch still succeeds and returns a series that is NOT strictly
increasing by open time. -/
theorem c1_series_ordering_counterexample :
    get_historical_data_as_dataframe (sOf "BTCUSDT") 0 (some 10) unorderedClient
      = .ok [processRow (brawAt 2), processRow (brawAt 1)]
    ∧ ¬ List.Pairwise (fun a b : BRec => a.openTime < b.openTime)
        [processRow (brawAt 2), processRow (brawAt 1)] := by
  exact ⟨by decide, by decide⟩

/-- Claim C1, amended: the KuCoin fetch unconditionally returns a series
strictly increasing by open time (the assembler deduplicates, filters,
and sorts, whatever the client returned); the Binance fetch preserves the
client's row order and count, so its result is strictly increasing by
open time whenever every page the client successfully returns is. -/
theorem c1_series_ordering_amended :
    (∀ (client : KClient) (startTs endTs fuel : Nat),
      List.Pairwise (fun a b => a.ts < b.ts)
        (get_kline_data_as_dataframe client startTs endTs fuel).df)
    ∧ (∀ (symbol : PyStr) (startT : Nat) (endT : Option Nat) (client : BClient)
        (rows : List BRec),
        (∀ (i : Nat) (s : PyStr) (st : Nat) (et : Option Nat) (out : List BRaw),
          client i s st et = .ok out →
          List.Pairwise (fun a b => a.openTime < b.openTime) out) →
        get_historical_data_as_dataframe symbol startT endT client = .ok rows →
        List.Pairwise (fun a b : BRec => a.openTime < b.openTime) rows) := by
  constructor
  · intro client startTs endTs fuel
    exact assemble_pairwise_lt startTs endTs (loopGo client startTs endTs fuel endTs).rows
  · intro symbol startT endT client rows hcl hok
    rcases get_historical_data_ok_shape symbol startT endT client rows hok with h | ⟨raws, ⟨i, hi⟩, hrows⟩
    · rw [h]
      exact List.Pairwise.nil
    · rw [hrows]
      have hp := hcl i (trimStr (upperStr symbol)) startT endT raws hi
      exact List.pairwise_map.mpr hp

/-- A client that answers exactly the in-order page
[open time 1, open time 2]. -/
def orderedClient : BClient := fun _ _ _ _ => .ok [brawAt 1, brawAt 2]

/-- Claim C1, witness: the amended Binance half instantiated at a client
whose pages are strictly increasing; the returned DataFrame rows are
strictly increasing by open time. -/
theorem c1_series_ordering_amended_witness :
    List.Pairwise (fun a b : BRec => a.openTime < b.openTime)
      [processRow (brawAt 1), processRow (brawAt 2)] :=
  c1_series_ordering_amended.2 (sOf "BTCUSDT") 0 (some 10) orderedClient
    [processRow (brawAt 1), processRow (brawAt 2)]
    (fun i s st et out hout => by cases hout; decide)
    (by decide)

/-- A client that answers every request with a candle at open time 999,
regardless of the requested range. -/
def outOfRangeClient : BClient := fun _ _ _ _ => .ok [brawAt 999]

/-- Claim C2, counterexample: the Binance path applies no range filter of
its own - it forwards the bounds to the external client and returns
whatever comes back - so a row outside the requested window [0, 10] is
returned by a successful fetch. -/
theorem c2_range_containment_counterexample :
    get_historical_data_as_dataframe (sOf "BTCUSDT") 0 (some 10) outOfRangeClient
      = .ok [processRow (brawAt 999)]
    ∧ (processRow (brawAt 999)).openTime = 999
    ∧ ¬((999 : Nat) ≤ 10) :=
  ⟨by decide, rfl, by decide⟩

/-- Claim C2, amended: the KuCoin fetch unconditionally returns only
candles with open time inside [start, end] (the assembler filters
inclusively on both bounds, whatever the client returned); the Binance
fetch adds no filter, so its result lies within the requested window
exactly when every page the client successfully returns does. -/
theorem c2_range_containment_amended :
    (∀ (client : KClient) (startTs endTs fuel : Nat) (r : KRow),
      r ∈ (get_kline_data_as_dataframe client startTs endTs fuel).df →
      startTs ≤ r.ts ∧ r.ts ≤ endTs)
    ∧ (∀ (symbol : PyStr) (startT endT : Nat) (client : BClient) (rows : List BRec),
        (∀ (i : Nat) (s : PyStr) (st : Nat) (et : Option Nat) (out : List BRaw),
          client i s st et = .ok out →
          ∀ b ∈ out, st ≤ b.openTime ∧ ∀ e, et = some e → b.openTime ≤ e) →
        get_historical_data_as_dataframe symbol startT (some endT) client = .ok rows →
        ∀ b ∈ rows, startT ≤ b.openTime ∧ b.openTime ≤ endT) := by
  constructor
  · intro client startTs endTs fuel r hr
    exact assemble_mem_range startTs endTs (loopGo client startTs endTs fuel endTs).rows r hr
  · intro symbol startT endT client rows hcl hok b hb
    rcases get_historical_data_ok_shape symbol startT (some endT) client rows hok with
      h | ⟨raws, ⟨i, hi⟩, hrows⟩
    · rw [h] at hb
      simp at hb
    · rw [hrows] at hb
      obtain ⟨a, ha, hab⟩ := List.mem_map.mp hb
      obtain ⟨h1, h2⟩ := hcl i (trimStr (upperStr symbol)) startT (some endT) raws hi a ha
      have hopen : b.openTime = a.openTime := by rw [← hab]; rfl
      exact ⟨hopen ▸ h1, hopen ▸ h2 endT rfl⟩

/-- Page logic of `inRangeClient`: the candle at open time 5 exactly when
the requested window contains it, an empty page otherwise. -/
def inRangePage (st : Nat) : Option Nat → CallRes BErr (List BRaw)
  | some e => if st ≤ 5 ∧ 5 ≤ e then .ok [brawAt 5] else .ok []
  | none => .ok []

/-- A client that honours the requested window. -/
def inRangeClient : BClient := fun _ _ st et => inRangePage st et

/-- Claim C2, witness: the amended Binance half instantiated at a client
that honours the requested window; the single returned row lies within
[0, 10]. -/
theorem c2_range_containment_amended_witness :
    0 ≤ (processRow (brawAt 5)).openTime ∧ (processRow (brawAt 5)).openTime ≤ 10 :=
  c2_range_containment_amended.2 (sOf "BTCUSDT") 0 10 inRangeClient
    [processRow (brawAt 5)]
    (fun i s st et out hout b hb => by
      unfold inRangeClient at hout
      cases et with
      | none =>
          rw [inRangePage] at hout
          cases hout
          simp at hb
      | some e =>
          rw [inRangePage] at hout
          by_cases hc : st ≤ 5 ∧ 5 ≤ e
          · rw [if_pos hc] at hout
            cases hout
            simp at hb
            subst hb
            exact ⟨hc.1, fun e' he' => by cases he'; exact hc.2⟩
          · rw [if_neg hc] at hout
            cases hout
            simp at hb)
    (by decide)
    (processRow (brawAt 5))
    (by decide)
